import Mathlib

/-!
Verification of the durchblicker.at housing-loan sweep scraper.

Shallow embedding of the pure core of the repository:
most text processing is modelled on `List Char`; Python / SQLite floats
are modelled as exact rationals (`ℚ`), with `float(...)` modelled as exact
decimal parsing of simple decimal literals (optional sign, digits, at most
one dot) — the inputs considered never use exponents, infinities or
underscore separators.
-/

namespace BankScraper

/-- Whitespace-strip from the left, as Python `str.strip` does on the left. -/
def dropLeadWs (s : List Char) : List Char := s.dropWhile Char.isWhitespace

/-- Model of Python `str.strip()`: remove leading and trailing whitespace. -/
def stripEnds (s : List Char) : List Char :=
  ((dropLeadWs s).reverse.dropWhile Char.isWhitespace).reverse

/-- Model of Python `str.replace(a, "")` for a single character `a`. -/
def removeChar (a : Char) (s : List Char) : List Char := s.filter (fun x => x ≠ a)

/-- Model of Python `str.replace(a, b)` for single characters `a`, `b`. -/
def replaceChar (a b : Char) (s : List Char) : List Char :=
  s.map (fun x => if x = a then b else x)

/-- Boolean test that the first list is an initial segment of the second. -/
def leadsWith : List Char → List Char → Bool
  | [], _ => true
  | _ :: _, [] => false
  | a :: p, b :: s => a = b && leadsWith p s

/-- Fuelled scanner behind `replaceAll`; fuel bounds the number of scan steps,
and is always at least the length of the scanned list at every call site. -/
def replaceAllF (p r : List Char) : Nat → List Char → List Char
  | 0, s => s
  | _ + 1, [] => []
  | fuel + 1, c :: t =>
      if p ≠ [] ∧ leadsWith p (c :: t) = true then
        r ++ replaceAllF p r fuel (List.drop p.length (c :: t))
      else
        c :: replaceAllF p r fuel t

/-- Model of Python `str.replace(p, r)` for a multi-character pattern `p`:
left-to-right, non-overlapping replacement. -/
def replaceAll (p r s : List Char) : List Char := replaceAllF p r s.length s

/-- Boolean substring test, modelling SQL `LIKE '%p%'` and Python `in`. -/
def containsSub (p : List Char) : List Char → Bool
  | [] => leadsWith p []
  | c :: t => leadsWith p (c :: t) || containsSub p t

/-- Model of Python `str.replace(a, "", n)`: remove only the first `n`
occurrences of the character `a`. -/
def removeFirstN (a : Char) : Nat → List Char → List Char
  | 0, s => s
  | _ + 1, [] => []
  | n + 1, c :: t => if c = a then removeFirstN a n t else c :: removeFirstN a (n + 1) t

/-- Numeric value of a digit string, most significant digit first. -/
def digitsToNat (s : List Char) : Nat :=
  s.foldl (fun n c => 10 * n + (c.toNat - 48)) 0

/-- Unsigned part of the model of Python `float(...)`: digits with at most one
dot, at least one digit overall; anything else fails. -/
def parseUnsigned (s : List Char) : Option ℚ :=
  let ip := s.takeWhile Char.isDigit
  let rest := s.dropWhile Char.isDigit
  match rest with
  | [] => if ip = [] then none else some (mkRat (digitsToNat ip) 1)
  | c :: frac =>
      if c = '.' then
        if ip = [] ∧ frac = [] then none
        else if frac.all Char.isDigit then
          some (mkRat (digitsToNat ip * 10 ^ frac.length + digitsToNat frac) (10 ^ frac.length))
        else none
      else none

/-- Model of Python `float(...)` restricted to simple decimal literals:
surrounding whitespace, an optional sign, digits and at most one dot. -/
def floatOfChars (s : List Char) : Option ℚ :=
  match stripEnds s with
  | [] => none
  | c :: u =>
      if c = '-' then (parseUnsigned u).map Rat.neg
      else if c = '+' then parseUnsigned u
      else parseUnsigned (c :: u)

/-- Core of `parse_currency_to_float` from `test_durchblicker.py` after the
null/sentinel guard: strip the euro sign and spaces, remove all dots, turn the
comma into a dot, and parse. -/
def pcfCore (s : List Char) : Option ℚ :=
  floatOfChars (replaceChar ',' '.' (removeChar '.' (stripEnds (removeChar ' ' (removeChar '€' s)))))

/-- `parse_currency_to_float` from `test_durchblicker.py` (lines 43-62);
`none` models both Python `None` and a failed `float(...)`. -/
def parse_currency_to_float (v : Option (List Char)) : Option ℚ :=
  match v with
  | none => none
  | some s => if s = [] ∨ s = ['-'] then none else pcfCore s

/-- `parse_german_number` from `db_helper.py` (lines 522-537): strip `%` and
`p.a.`, turn commas into dots, strip, then drop all but the last dot when more
than one remains, and parse. -/
def parse_german_number (v : Option (List Char)) : Option ℚ :=
  match v with
  | none => none
  | some s =>
      if s = [] ∨ s = ['-'] then none
      else
        let v1 := replaceAll ('p' :: '.' :: 'a' :: '.' :: []) [] (removeChar '%' s)
        let v2 := stripEnds (replaceChar ',' '.' v1)
        let v3 := if 1 < v2.count '.' then removeFirstN '.' (v2.count '.' - 1) v2 else v2
        floatOfChars v3

/-- Modelled from the spec: the stripping of "currency words/symbols" of
§4.5 — the currency symbol `€`, the currency word `Euro` (the word the
repository's own SQL normalizer strips), and spaces. -/
def stripCurrency (s : List Char) : List Char :=
  stripEnds (removeChar ' ' (replaceAll ('E' :: 'u' :: 'r' :: 'o' :: []) [] (removeChar '€' s)))

/-- Modelled from the spec: the currency shape rule of §4.5, which the code of
the repository states only in prose — strip currency words/symbols; with both
`.` and `,` present remove the dots and turn the comma into a dot; with only
`,` turn it into a dot; otherwise parse the digits directly. -/
def specCurrencyRule (s : List Char) : Option ℚ :=
  if ('.' ∈ stripCurrency s) ∧ (',' ∈ stripCurrency s) then
    floatOfChars (replaceChar ',' '.' (removeChar '.' (stripCurrency s)))
  else if ',' ∈ stripCurrency s then floatOfChars (replaceChar ',' '.' (stripCurrency s))
  else floatOfChars (stripCurrency s)

/-- Model of SQLite `CAST(x AS INTEGER)`: optional sign, then the longest
leading digit run; defaults to 0. -/
def castInt (s : List Char) : ℤ :=
  match dropLeadWs s with
  | [] => 0
  | c :: u =>
      if c = '-' then Int.neg (Int.ofNat (digitsToNat (u.takeWhile Char.isDigit)))
      else if c = '+' then Int.ofNat (digitsToNat (u.takeWhile Char.isDigit))
      else Int.ofNat (digitsToNat ((c :: u).takeWhile Char.isDigit))

/-- Unsigned part of the model of SQLite `CAST(x AS REAL)`: longest leading
numeric run, defaulting to 0, never failing. -/
def castRealU (s : List Char) : ℚ :=
  let ip := s.takeWhile Char.isDigit
  let rest := s.dropWhile Char.isDigit
  match rest with
  | c :: frac =>
      if c = '.' then
        let fd := frac.takeWhile Char.isDigit
        mkRat (digitsToNat ip * 10 ^ fd.length + digitsToNat fd) (10 ^ fd.length)
      else mkRat (digitsToNat ip) 1
  | [] => mkRat (digitsToNat ip) 1

/-- Model of SQLite `CAST(x AS REAL)` on decimal text. -/
def castReal (s : List Char) : ℚ :=
  match dropLeadWs s with
  | [] => 0
  | c :: u =>
      if c = '-' then Rat.neg (castRealU u)
      else if c = '+' then castRealU u
      else castRealU (c :: u)

/-- Model of SQL `LIKE '%.%,%'`: a dot with a comma somewhere after it. -/
def hasDotThenComma : List Char → Bool
  | [] => false
  | c :: t => (c = '.' && t.contains ',') || hasDotThenComma t

/-- The `REPLACE(REPLACE(x, '€', ''), 'Euro', '')` stage shared by the three
currency branches of the chart-view query in `create_chart_view.py`. -/
def stripCurrencyWords (s : List Char) : List Char :=
  replaceAll ('E' :: 'u' :: 'r' :: 'o' :: []) [] (removeChar '€' s)

/-- The `monatliche_rate_numeric` column of the chart view
(`create_chart_view.py`, lines 62-71): a CASE on the shape of the raw text,
then a CAST to REAL. -/
def monatliche_rate_numeric (s : List Char) : ℚ :=
  if hasDotThenComma s then
    castReal (replaceChar ',' '.' (removeChar '.' (stripCurrencyWords s)))
  else if s.contains ',' then
    castReal (replaceChar ',' '.' (stripCurrencyWords s))
  else
    castReal (stripCurrencyWords s)

/-- The `vertragslaufzeit_numeric` column of the chart view
(`create_chart_view.py`, lines 73-81): year strings are scaled to months,
month strings taken as-is, anything else cast directly. -/
def vertragslaufzeit_numeric (s : List Char) : ℤ :=
  if containsSub (('J' :: 'a' :: 'h' :: 'r' :: 'e' :: [])) s = true then
    castInt (removeChar ' ' (replaceAll (' ' :: 'J' :: 'a' :: 'h' :: 'r' :: 'e' :: []) [] s)) * 12
  else if containsSub (('M' :: 'o' :: 'n' :: 'a' :: 't' :: 'e' :: [])) s = true then
    castInt (removeChar ' ' (replaceAll (' ' :: 'M' :: 'o' :: 'n' :: 'a' :: 't' :: 'e' :: []) [] s))
  else
    castInt s

/-- Fuelled form of the `while current <= laufzeit` loop of
`get_fixierung_values_for_laufzeit`; the fuel is an upper bound on the number
of iterations, one unit per loop entry. -/
def fixLoopF : Nat → Nat → Nat → List Nat
  | 0, _, _ => []
  | fuel + 1, laufzeit, current =>
      if current ≤ laufzeit then
        current :: fixLoopF fuel laufzeit (if current = 0 then 5 else current + 5)
      else []

/-- `get_fixierung_values_for_laufzeit` from `test_durchblicker.py`
(lines 74-88): the fixed-period slider values 0, 5, 10, … up to the term. -/
def get_fixierung_values_for_laufzeit (laufzeit : Nat) : List Nat :=
  fixLoopF (laufzeit + 2) laufzeit 0

/-- Key list of an association-list dictionary. -/
def dKeys (d : List (List Char × List Char)) : List (List Char) := d.map Prod.fst

/-- Python `dict` assignment `d[k] = v`: overwrite the existing binding of `k`
or append a new one. -/
def dictInsert (k v : List Char) (d : List (List Char × List Char)) :
    List (List Char × List Char) :=
  if k ∈ dKeys d then d.map (fun p => if p.1 = k then (k, v) else p) else d ++ [(k, v)]

/-- Python `d.get(k)`: the bound value, if any. -/
def dictGet (k : List Char) : List (List Char × List Char) → Option (List Char)
  | [] => none
  | p :: d => if p.1 = k then some p.2 else dictGet k d

/-- Python `d.get(k, dflt)`. -/
def dictGetD (k dflt : List Char) (d : List (List Char × List Char)) : List Char :=
  (dictGet k d).getD dflt

/-- The synonym normalization of `scrape_offer_details`: the single
`str.replace` that maps the long follow-up-condition label variant to the
short canonical one. -/
def cleanLabel (l : List Char) : List Char :=
  replaceAll ("Anschlusskondition nach Fixzinsphase".toList) ("Anschlusskondition".toList) l

/-- `scrape_offer_details` from `test_durchblicker.py` (lines 653-700) on an
abstract panel: `none` models an absent results panel, `some rows` the list of
(label, value) grid rows; rows with an empty label or value are skipped, all
others are stored under their cleaned label. -/
def scrape_offer_details (panel : Option (List (List Char × List Char))) :
    List (List Char × List Char) :=
  match panel with
  | none => []
  | some rows =>
      rows.foldl
        (fun d p => if p.1 ≠ [] ∧ p.2 ≠ [] then dictInsert (cleanLabel p.1) p.2 d else d) []

/-- One `fixierung_variations` row, with the fields and nullability used by
`screen4` and the `fixierung_variations` table of `db_helper.py`. -/
structure Variation where
  fixierung_jahre : Nat
  rate : Option ℚ
  zinssatz : List Char
  laufzeit : List Char
  anschlusskondition : Option (List Char)
  effektiver_zinssatz : List Char
  auszahlungsbetrag : Option ℚ
  einberechnete_kosten : Option ℚ
  kreditbetrag : Option ℚ
  gesamtbetrag : Option ℚ
  besicherung : List Char
  deriving DecidableEq

/-- The `variation_data` dictionary built by `screen4` (lines 770-783) from an
extraction result for one grid cell. -/
def buildVariation (fixierung : Nat) (details : List (List Char × List Char)) : Variation where
  fixierung_jahre := fixierung
  rate := parse_currency_to_float (dictGet ("Rate".toList) details)
  zinssatz := dictGetD ("Zinssatz".toList) ("-".toList) details
  laufzeit := dictGetD ("Laufzeit".toList) ("-".toList) details
  anschlusskondition := dictGet ("Anschlusskondition".toList) details
  effektiver_zinssatz := dictGetD ("Effektiver Zinssatz".toList) ("-".toList) details
  auszahlungsbetrag := parse_currency_to_float (dictGet ("Auszahlungsbetrag".toList) details)
  einberechnete_kosten := parse_currency_to_float (dictGet ("Einberechnete Kosten".toList) details)
  kreditbetrag := parse_currency_to_float (dictGet ("Kreditbetrag".toList) details)
  gesamtbetrag := parse_currency_to_float (dictGet ("Zu zahlender Gesamtbetrag".toList) details)
  besicherung := dictGetD ("Besicherung".toList) ("-".toList) details

/-- The inner fixed-period loop of `screen4` for one term, with extraction
calls made explicit: `oracle k` is the panel seen by the `k`-th extraction
call of the session, and the returned counter is the next call number. The
loop body performs exactly one `scrape_offer_details()` call per grid cell
and appends one `variation_data` per cell. -/
def processCells (oracle : Nat → Option (List (List Char × List Char))) :
    List Nat → Nat → List Variation × Nat
  | [], k => ([], k)
  | f :: fs, k =>
      let d := scrape_offer_details (oracle k)
      let rest := processCells oracle fs (k + 1)
      (buildVariation f d :: rest.1, rest.2)

/-- The per-term output of `screen4`: one Variation per value of the
fixed-period grid of the term, built from that cell's extraction result. -/
def variationsForTerm (extract : Nat → Option (List (List Char × List Char)))
    (laufzeit : Nat) : List Variation :=
  (processCells (fun f => extract f) (get_fixierung_values_for_laufzeit laufzeit) 0).1

/-- One stored run: the `laufzeit_jahre` metadata plus its inserted
`fixierung_variations` rows, as written by `save_scraping_data`. -/
structure SavedRun where
  laufzeit_jahre : Nat
  variations : List Variation

/-- `save_scraping_data` from `db_helper.py` (lines 199-223): insert the run
metadata, then insert every variation of the list, one row each. -/
def save_scraping_data (laufzeit : Nat) (vars : List Variation) : SavedRun :=
  ⟨laufzeit, vars⟩

/-- Comparison used to read variations back ordered by fixed period
ascending (`get_variations_for_run`, `ORDER BY fixierung_jahre`). -/
def fixLE (a b : Variation) : Prop := a.fixierung_jahre ≤ b.fixierung_jahre

instance : DecidableRel fixLE := fun a b => Nat.decLe a.fixierung_jahre b.fixierung_jahre

/-- `get_variations_for_run` from `db_helper.py`: the stored rows of the run,
ordered by `fixierung_jahre` ascending. -/
def listVariations (r : SavedRun) : List Variation :=
  List.insertionSort fixLE r.variations

/-- One `scraping_runs` row as read back by the report generator: its id, its
term, and its creation timestamp (timestamps modelled as naturals). -/
structure RunRec where
  id : Nat
  laufzeit : Nat
  scrape_date : Nat
  deriving DecidableEq

/-- The distinct `laufzeit_jahre` values in first-appearance order — the key
set of the `runs_by_laufzeit` dictionary of `generate_housing_loan_html.py`. -/
def distinctTerms (runs : List RunRec) : List Nat :=
  runs.foldl (fun ks r => if r.laufzeit ∈ ks then ks else ks ++ [r.laufzeit]) []

/-- The `runs_by_laufzeit[laufzeit]` group: the runs of one term, in input
order. -/
def groupForTerm (runs : List RunRec) (laufzeit : Nat) : List RunRec :=
  runs.filter (fun r => r.laufzeit = laufzeit)

/-- Comparison for `sorted(runs_list, key=scrape_date, reverse=True)`. -/
def dateGE (a b : RunRec) : Prop := b.scrape_date ≤ a.scrape_date

instance : DecidableRel dateGE := fun a b => Nat.decLe b.scrape_date a.scrape_date

instance : IsTotal RunRec dateGE := ⟨fun a b => Nat.le_total b.scrape_date a.scrape_date⟩

instance : IsTrans RunRec dateGE := ⟨fun _ _ _ h1 h2 => Nat.le_trans h2 h1⟩

/-- `latest_by_laufzeit` from `generate_housing_loan_html.py` (lines
1330-1335): for each distinct term, sort its runs by date descending and keep
the first. -/
def latest_by_laufzeit (runs : List RunRec) : List (Nat × RunRec) :=
  (distinctTerms runs).filterMap
    (fun laufzeit =>
      (List.insertionSort dateGE (groupForTerm runs laufzeit)).head?.map
        (fun r => (laufzeit, r)))

/-- Lookup in the result of `latest_by_laufzeit`. -/
def lookupTerm (laufzeit : Nat) : List (Nat × RunRec) → Option RunRec
  | [] => none
  | p :: d => if p.1 = laufzeit then some p.2 else lookupTerm laufzeit d

/-! ### Generic helper lemmas about the string model -/

theorem digit_ne_of_not_digit {c x : Char} (h : c.isDigit = true) (hx : x.isDigit = false) :
    c ≠ x := by
  intro he
  rw [he, hx] at h
  exact Bool.false_ne_true h

theorem not_ws_of_digit {c : Char} (h : c.isDigit = true) : c.isWhitespace = false := by
  cases hw : c.isWhitespace with
  | false => rfl
  | true =>
      exfalso
      have hmem := hw
      simp only [Char.isWhitespace, Bool.or_eq_true, decide_eq_true_eq] at hmem
      rcases hmem with ((h1 | h1) | h1) | h1 <;> (subst h1; simp [Char.isDigit] at h)

theorem removeChar_eq_self {a : Char} {s : List Char} (h : ∀ c ∈ s, c ≠ a) :
    removeChar a s = s := by
  unfold removeChar
  refine List.filter_eq_self.mpr ?_
  intro c hc
  simpa using h c hc

theorem removeChar_append (a : Char) (s t : List Char) :
    removeChar a (s ++ t) = removeChar a s ++ removeChar a t := by
  simp [removeChar]

theorem replaceChar_eq_self {a b : Char} {s : List Char} (h : ∀ c ∈ s, c ≠ a) :
    replaceChar a b s = s := by
  unfold replaceChar
  induction s with
  | nil => rfl
  | cons c t ih =>
      have hc : c ≠ a := h c (List.mem_cons_self c t)
      simp only [List.map_cons, if_neg hc]
      rw [ih (fun x hx => h x (List.mem_cons_of_mem c hx))]

theorem replaceChar_append (a b : Char) (s t : List Char) :
    replaceChar a b (s ++ t) = replaceChar a b s ++ replaceChar a b t := by
  simp [replaceChar]

theorem dropWhile_eq_self_of {p : Char → Bool} {s : List Char}
    (h : ∀ c ∈ s, p c = false) : s.dropWhile p = s := by
  cases s with
  | nil => rfl
  | cons c t => simp [List.dropWhile_cons, h c (List.mem_cons_self c t)]

theorem takeWhile_eq_self_of {p : Char → Bool} {s : List Char}
    (h : ∀ c ∈ s, p c = true) : s.takeWhile p = s := by
  induction s with
  | nil => rfl
  | cons c t ih =>
      simp only [List.takeWhile_cons, h c (List.mem_cons_self c t), if_true]
      rw [ih (fun x hx => h x (List.mem_cons_of_mem c hx))]

theorem stripEnds_eq_self {s : List Char} (h : ∀ c ∈ s, c.isWhitespace = false) :
    stripEnds s = s := by
  unfold stripEnds dropLeadWs
  rw [dropWhile_eq_self_of h, dropWhile_eq_self_of (fun c hc => h c (List.mem_reverse.mp hc)),
    List.reverse_reverse]

theorem leadsWith_refl (p : List Char) : leadsWith p p = true := by
  induction p with
  | nil => rfl
  | cons a p ih => simp [leadsWith, ih]

theorem leadsWith_self_append (p r : List Char) : leadsWith p (p ++ r) = true := by
  induction p with
  | nil => rfl
  | cons a p ih => simp [leadsWith, ih]

theorem replaceAllF_nil (p r : List Char) (fuel : Nat) : replaceAllF p r fuel [] = [] := by
  cases fuel <;> rfl

theorem replaceAllF_eq_self {p0 : Char} {p' r : List Char} :
    ∀ (fuel : Nat) (s : List Char), (∀ c ∈ s, c ≠ p0) →
      replaceAllF (p0 :: p') r fuel s = s
  | 0, _, _ => rfl
  | _ + 1, [], _ => rfl
  | fuel + 1, c :: t, h => by
      have hc : ¬(p0 = c) := fun he => h c (List.mem_cons_self c t) he.symm
      rw [replaceAllF, if_neg]
      · rw [replaceAllF_eq_self fuel t (fun x hx => h x (List.mem_cons_of_mem c hx))]
      · intro hcond
        have := hcond.2
        simp [leadsWith, hc] at this

theorem replaceAll_eq_self {p0 : Char} {p' r : List Char} {s : List Char}
    (h : ∀ c ∈ s, c ≠ p0) : replaceAll (p0 :: p') r s = s :=
  replaceAllF_eq_self s.length s h

theorem replaceAllF_eq_self_of_not_contains {p r : List Char} (hp : p ≠ []) :
    ∀ (fuel : Nat) (s : List Char), containsSub p s = false →
      replaceAllF p r fuel s = s
  | 0, _, _ => rfl
  | _ + 1, [], _ => rfl
  | fuel + 1, c :: t, h => by
      rw [containsSub, Bool.or_eq_false_iff] at h
      rw [replaceAllF, if_neg (fun hc => by rw [h.1] at hc; exact Bool.false_ne_true hc.2)]
      rw [replaceAllF_eq_self_of_not_contains hp fuel t h.2]

theorem replaceAll_eq_self_of_not_contains {p r s : List Char} (hp : p ≠ [])
    (h : containsSub p s = false) : replaceAll p r s = s :=
  replaceAllF_eq_self_of_not_contains hp s.length s h

theorem replaceAllF_strip_suffix {p0 : Char} {p' : List Char} :
    ∀ (ds : List Char) (fuel : Nat), (∀ c ∈ ds, c ≠ p0) →
      (ds ++ (p0 :: p')).length ≤ fuel →
      replaceAllF (p0 :: p') [] fuel (ds ++ (p0 :: p')) = ds := by
  intro ds
  induction ds with
  | nil =>
      intro fuel _ hfuel
      cases fuel with
      | zero => simp at hfuel
      | succ f =>
          simp only [List.nil_append]
          rw [replaceAllF, if_pos ⟨List.cons_ne_nil p0 p', leadsWith_refl (p0 :: p')⟩]
          rw [show List.drop (p0 :: p').length (p0 :: p') = [] from List.drop_length _,
            replaceAllF_nil]
          rfl
  | cons d ds ih =>
      intro fuel h hfuel
      cases fuel with
      | zero => simp at hfuel
      | succ f =>
          have hd : ¬(p0 = d) := fun he => h d (List.mem_cons_self d ds) he.symm
          rw [List.cons_append, replaceAllF, if_neg]
          · rw [ih f (fun x hx => h x (List.mem_cons_of_mem d hx))
              (by simpa using Nat.succ_le_succ_iff.mp (by simpa using hfuel))]
          · intro hcond
            have := hcond.2
            simp [leadsWith, hd] at this

theorem replaceAll_strip_suffix {p0 : Char} {p' : List Char} {ds : List Char}
    (h : ∀ c ∈ ds, c ≠ p0) :
    replaceAll (p0 :: p') [] (ds ++ (p0 :: p')) = ds :=
  replaceAllF_strip_suffix ds (ds ++ (p0 :: p')).length h (Nat.le_refl _)

theorem containsSub_of_leadsWith {p s : List Char} (h : leadsWith p s = true) :
    containsSub p s = true := by
  cases s with
  | nil => simpa [containsSub] using h
  | cons c t => simp [containsSub, h]

theorem containsSub_cons {p : List Char} (c : Char) {t : List Char}
    (h : containsSub p t = true) : containsSub p (c :: t) = true := by
  simp [containsSub, h]

theorem containsSub_self_suffix (p : List Char) :
    ∀ a : List Char, containsSub p (a ++ p) = true
  | [] => containsSub_of_leadsWith (by simpa using leadsWith_refl p)
  | c :: a => containsSub_cons c (containsSub_self_suffix p a)

theorem containsSub_eq_false {p0 : Char} {p' : List Char} :
    ∀ {s : List Char}, (∀ c ∈ s, c ≠ p0) → containsSub (p0 :: p') s = false
  | [], _ => rfl
  | c :: t, h => by
      have hc : ¬(p0 = c) := fun he => h c (List.mem_cons_self c t) he.symm
      rw [containsSub]
      rw [containsSub_eq_false (fun x hx => h x (List.mem_cons_of_mem c hx))]
      simp [leadsWith, hc]

theorem removeFirstN_of_count {a : Char} :
    ∀ (A : List Char) (rest : List Char),
      removeFirstN a (A.count a) (A ++ rest) = removeChar a A ++ rest := by
  intro A
  induction A with
  | nil => intro rest; simp [removeFirstN, removeChar]
  | cons c A ih =>
      intro rest
      by_cases hc : c = a
      · subst hc
        rw [List.count_cons_self, List.cons_append]
        simp only [removeFirstN, if_pos rfl]
        rw [ih]
        simp [removeChar]
      · rw [List.count_cons]
        simp only [beq_iff_eq, if_neg hc, Nat.add_zero]
        rw [List.cons_append]
        cases hn : A.count a with
        | zero =>
            have hnotin : a ∉ A := List.count_eq_zero.mp hn
            have hA : removeChar a A = A :=
              removeChar_eq_self (fun x hx he => hnotin (he ▸ hx))
            simp only [removeFirstN]
            rw [show removeChar a (c :: A) = c :: removeChar a A by simp [removeChar, hc], hA,
              List.cons_append]
        | succ m =>
            simp only [removeFirstN, if_neg hc]
            rw [← hn, ih]
            simp [removeChar, hc]

theorem class2_ne {c x : Char} (h : c.isDigit = true ∨ c = '.') (hx : x.isDigit = false)
    (hx' : ('.' : Char) ≠ x) : c ≠ x :=
  h.elim (fun hd => digit_ne_of_not_digit hd hx) (fun he => he ▸ hx')

theorem class2_not_ws {c : Char} (h : c.isDigit = true ∨ c = '.') : c.isWhitespace = false :=
  h.elim not_ws_of_digit (fun he => he ▸ (by decide))

theorem class3_ne {c x : Char} (h : c.isDigit = true ∨ c = '.' ∨ c = ',')
    (hx : x.isDigit = false) (hd : ('.' : Char) ≠ x) (hc : (',' : Char) ≠ x) : c ≠ x := by
  rcases h with h | h | h
  · exact digit_ne_of_not_digit h hx
  · exact h ▸ hd
  · exact h ▸ hc

theorem class3_not_ws {c : Char} (h : c.isDigit = true ∨ c = '.' ∨ c = ',') :
    c.isWhitespace = false := by
  rcases h with h | h | h
  · exact not_ws_of_digit h
  · exact h ▸ (by decide)
  · exact h ▸ (by decide)

/-! ### C1: idempotence of the numeric normalizer on canonical strings -/

/-- C1 (counterexample): the claimed idempotence fails on the code — the sweep
driver's normalizer `parse_currency_to_float` maps the already-canonical
string "1948.50" to 194850, not back to 1948.50: it unconditionally deletes
every dot before parsing. -/
theorem C1_counterexample :
    parse_currency_to_float (some ("1948.50".toList)) = some (mkRat 194850 1) ∧
      parse_currency_to_float (some ("1948.50".toList)) ≠ some (mkRat 3897 2) := by
  constructor
  · decide
  · decide

/-- C1 (amended): the store helper's normalizer `parse_german_number` is
idempotent on already-canonical numeric strings — on any string of digits with
at most one dot it returns exactly the value the string denotes (so in
particular "1948.50" maps to 1948.50) — but the sweep driver's
`parse_currency_to_float` is not idempotent: it maps "1948.50" to 194850. -/
theorem C1_amended :
    (∀ s : List Char, (∀ c ∈ s, c.isDigit = true ∨ c = '.') → s.count '.' ≤ 1 →
        parse_german_number (some s) = floatOfChars s) ∧
      parse_currency_to_float (some ("1948.50".toList)) = some (mkRat 194850 1) := by
  constructor
  · intro s hclass hcount
    by_cases hs : s = []
    · subst hs; rfl
    · have hguard : ¬(s = [] ∨ s = ['-']) := by
        rintro (h1 | h1)
        · exact hs h1
        · have := hclass '-' (by rw [h1]; exact List.mem_cons_self _ _)
          revert this; decide
      have h1 : removeChar '%' s = s :=
        removeChar_eq_self (fun c hc => class2_ne (hclass c hc) (by decide) (by decide))
      have h2 : replaceAll ('p' :: '.' :: 'a' :: '.' :: []) [] s = s :=
        replaceAll_eq_self (fun c hc => class2_ne (hclass c hc) (by decide) (by decide))
      have h3 : replaceChar ',' '.' s = s :=
        replaceChar_eq_self (fun c hc => class2_ne (hclass c hc) (by decide) (by decide))
      have h4 : stripEnds s = s := stripEnds_eq_self (fun c hc => class2_not_ws (hclass c hc))
      have h5 : ¬(1 < s.count '.') := by omega
      simp only [parse_german_number, if_neg hguard, h1, h2, h3, h4, if_neg h5]
  · decide

/-! ### C6: the currency shape rule -/

/-- C6 (counterexample): the sweep driver's currency normalizer does not
follow the spec's shape rule on every currency display string. Two failures:
on "1948.50", which contains a dot but no comma, the rule parses the digits
directly (1948.50) while the code removes the dot and yields 194850; and on
"100,50 Euro", the rule strips the currency word "Euro" and yields 100.50
while the code strips only the "€" symbol and spaces, so its parse fails and
yields null. -/
theorem C6_counterexample :
    (specCurrencyRule ("1948.50".toList) = some (mkRat 3897 2) ∧
      parse_currency_to_float (some ("1948.50".toList)) = some (mkRat 194850 1) ∧
      parse_currency_to_float (some ("1948.50".toList)) ≠ specCurrencyRule ("1948.50".toList)) ∧
    (specCurrencyRule ("100,50 Euro".toList) = some (mkRat 201 2) ∧
      parse_currency_to_float (some ("100,50 Euro".toList)) = none ∧
      parse_currency_to_float (some ("100,50 Euro".toList)) ≠
        specCurrencyRule ("100,50 Euro".toList)) := by
  refine ⟨⟨by decide, by decide, by decide⟩, ⟨by decide, by decide, by decide⟩⟩

/-- C6 (amended): the sweep driver's normalizer agrees with the spec's
currency shape rule on every string in which the currency word "Euro" does
not occur (after removing "€") and which, after stripping, contains a comma
or contains no dot. The driver deviates from the rule exactly in the two
excluded cases: it strips only the "€" symbol and spaces, not the word
"Euro", and on a dot-but-no-comma string it deletes the dots instead of
parsing the digits directly. The headline example holds concretely in both
implementations: "1.948,50 €" normalizes to 1948.50 in the driver and in the
chart-view SQL normalizer. -/
theorem C6_amended :
    (∀ s : List Char,
        containsSub ('E' :: 'u' :: 'r' :: 'o' :: []) (removeChar '€' s) = false →
        (',' ∈ stripCurrency s ∨ '.' ∉ stripCurrency s) →
        pcfCore s = specCurrencyRule s) ∧
      parse_currency_to_float (some ("1.948,50 €".toList)) = some (mkRat 3897 2) ∧
      monatliche_rate_numeric ("1.948,50 €".toList) = mkRat 3897 2 := by
  refine ⟨?_, by decide, by decide⟩
  intro s hE h
  have hstrip : stripCurrency s = stripEnds (removeChar ' ' (removeChar '€' s)) := by
    unfold stripCurrency
    rw [replaceAll_eq_self_of_not_contains (List.cons_ne_nil _ _) hE]
  rw [hstrip] at h
  by_cases hcomma : ',' ∈ stripEnds (removeChar ' ' (removeChar '€' s))
  · by_cases hdot : '.' ∈ stripEnds (removeChar ' ' (removeChar '€' s))
    · simp only [pcfCore, specCurrencyRule, hstrip, if_pos (And.intro hdot hcomma)]
    · have hrm : removeChar '.' (stripEnds (removeChar ' ' (removeChar '€' s))) =
          stripEnds (removeChar ' ' (removeChar '€' s)) :=
        removeChar_eq_self (fun c hc he => hdot (he ▸ hc))
      simp only [pcfCore, specCurrencyRule, hstrip, hrm]
      rw [if_neg (by intro hb; exact hdot hb.1), if_pos hcomma]
  · have hdot : '.' ∉ stripEnds (removeChar ' ' (removeChar '€' s)) := h.resolve_left hcomma
    have hrm : removeChar '.' (stripEnds (removeChar ' ' (removeChar '€' s))) =
        stripEnds (removeChar ' ' (removeChar '€' s)) :=
      removeChar_eq_self (fun c hc he => hdot (he ▸ hc))
    have hrp : replaceChar ',' '.' (stripEnds (removeChar ' ' (removeChar '€' s))) =
        stripEnds (removeChar ' ' (removeChar '€' s)) :=
      replaceChar_eq_self (fun c hc he => hcomma (he ▸ hc))
    simp only [pcfCore, specCurrencyRule, hstrip, hrm, hrp]
    rw [if_neg (by intro hb; exact hcomma hb.2), if_neg hcomma]

/-! ### C10: equivalence of the two currency normalizers -/

/-- C10 (counterexample): the two normalizers are not equivalent — on
"1948.50" the sweep driver's `parse_currency_to_float` deletes the dot and
returns 194850 while the store helper's `parse_german_number` keeps the
single dot and returns 1948.50. -/
theorem C10_counterexample :
    parse_currency_to_float (some ("1948.50".toList)) = some (mkRat 194850 1) ∧
      parse_german_number (some ("1948.50".toList)) = some (mkRat 3897 2) ∧
      parse_currency_to_float (some ("1948.50".toList)) ≠
        parse_german_number (some ("1948.50".toList)) := by
  refine ⟨by decide, by decide, by decide⟩

/-- C10 (amended): the two normalizers agree on German-format monetary text:
on every string consisting of a (possibly dot-grouped) digit part, a single
decimal comma, and a digit fraction, `parse_currency_to_float` and
`parse_german_number` return the same value. -/
theorem C10_amended :
    ∀ A B : List Char, (∀ c ∈ A, c.isDigit = true ∨ c = '.') →
      (∀ c ∈ B, c.isDigit = true) →
      parse_currency_to_float (some (A ++ ',' :: B)) =
        parse_german_number (some (A ++ ',' :: B)) := by
  intro A B hA hB
  have hclass : ∀ c ∈ A ++ ',' :: B, c.isDigit = true ∨ c = '.' ∨ c = ',' := by
    intro c hc
    rcases List.mem_append.mp hc with hc | hc
    · rcases hA c hc with h | h
      · exact Or.inl h
      · exact Or.inr (Or.inl h)
    · rcases List.mem_cons.mp hc with hc | hc
      · exact Or.inr (Or.inr hc)
      · exact Or.inl (hB c hc)
  have hmem : (',' : Char) ∈ A ++ ',' :: B :=
    List.mem_append_right A (List.mem_cons_self ',' B)
  have hguard : ¬(A ++ ',' :: B = [] ∨ A ++ ',' :: B = ['-']) := by
    rintro (h1 | h1) <;> rw [h1] at hmem
    · exact absurd hmem (List.not_mem_nil ',')
    · revert hmem; decide
  have heuro : removeChar '€' (A ++ ',' :: B) = A ++ ',' :: B :=
    removeChar_eq_self
      (fun c hc => class3_ne (hclass c hc) (by decide) (by decide) (by decide))
  have hspace : removeChar ' ' (A ++ ',' :: B) = A ++ ',' :: B :=
    removeChar_eq_self
      (fun c hc => class3_ne (hclass c hc) (by decide) (by decide) (by decide))
  have hstrip : stripEnds (A ++ ',' :: B) = A ++ ',' :: B :=
    stripEnds_eq_self (fun c hc => class3_not_ws (hclass c hc))
  have hBnodot : removeChar '.' B = B :=
    removeChar_eq_self (fun c hc => digit_ne_of_not_digit (hB c hc) (by decide))
  have hBmap : replaceChar ',' '.' B = B :=
    replaceChar_eq_self (fun c hc => digit_ne_of_not_digit (hB c hc) (by decide))
  have hAmap : replaceChar ',' '.' A = A :=
    replaceChar_eq_self (fun c hc => class2_ne (hA c hc) (by decide) (by decide))
  have hrAmap : replaceChar ',' '.' (removeChar '.' A) = removeChar '.' A :=
    replaceChar_eq_self
      (fun c hc => class2_ne (hA c (List.mem_of_mem_filter hc)) (by decide) (by decide))
  have hBdotzero : B.count '.' = 0 :=
    List.count_eq_zero.mpr (fun hc => absurd (hB '.' hc) (by decide))
  -- the driver side reduces to parsing (removeChar '.' A) ++ '.' :: B
  have hpcf : parse_currency_to_float (some (A ++ ',' :: B)) =
      floatOfChars (removeChar '.' A ++ '.' :: B) := by
    have hdots : removeChar '.' (A ++ ',' :: B) = removeChar '.' A ++ ',' :: B := by
      rw [removeChar_append]
      have : removeChar '.' (',' :: B) = ',' :: B := by
        rw [show removeChar '.' (',' :: B) = ',' :: removeChar '.' B by simp [removeChar], hBnodot]
      rw [this]
    have hmap : replaceChar ',' '.' (removeChar '.' A ++ ',' :: B) =
        removeChar '.' A ++ '.' :: B := by
      rw [replaceChar_append, hrAmap]
      rw [show replaceChar ',' '.' (',' :: B) = '.' :: replaceChar ',' '.' B by
        simp [replaceChar], hBmap]
    simp only [parse_currency_to_float, if_neg hguard, pcfCore, heuro, hspace, hstrip, hdots, hmap]
  -- the store side reduces to the same string
  have hpct : removeChar '%' (A ++ ',' :: B) = A ++ ',' :: B :=
    removeChar_eq_self
      (fun c hc => class3_ne (hclass c hc) (by decide) (by decide) (by decide))
  have hpa : replaceAll ('p' :: '.' :: 'a' :: '.' :: []) [] (A ++ ',' :: B) = A ++ ',' :: B :=
    replaceAll_eq_self
      (fun c hc => class3_ne (hclass c hc) (by decide) (by decide) (by decide))
  have hcommamap : replaceChar ',' '.' (A ++ ',' :: B) = A ++ '.' :: B := by
    rw [replaceChar_append, hAmap]
    rw [show replaceChar ',' '.' (',' :: B) = '.' :: replaceChar ',' '.' B by
      simp [replaceChar], hBmap]
  have hstrip2 : stripEnds (A ++ '.' :: B) = A ++ '.' :: B := by
    refine stripEnds_eq_self (fun c hc => ?_)
    rcases List.mem_append.mp hc with hc | hc
    · exact class2_not_ws (hA c hc)
    · rcases List.mem_cons.mp hc with hc | hc
      · exact hc ▸ (by decide)
      · exact not_ws_of_digit (hB c hc)
  have hcnt : (A ++ '.' :: B).count '.' = A.count '.' + 1 := by
    rw [List.count_append, List.count_cons_self, hBdotzero, Nat.zero_add]
  have hpgn : parse_german_number (some (A ++ ',' :: B)) =
      floatOfChars (removeChar '.' A ++ '.' :: B) := by
    simp only [parse_german_number, if_neg hguard, hpct, hpa, hcommamap, hstrip2, hcnt]
    cases hn : A.count '.' with
    | zero =>
        have hAnodot : removeChar '.' A = A :=
          removeChar_eq_self (fun c hc he =>
            absurd hn (by rw [List.count_eq_zero]; intro h'; exact absurd (he ▸ hc) h'; ))
        rw [if_neg (by omega), hAnodot]
    | succ m =>
        rw [if_pos (by omega), show m + 1 + 1 - 1 = m + 1 from rfl, ← hn,
          removeFirstN_of_count]
  rw [hpcf, hpgn]

/-! ### The fixed-period grid -/

theorem mem_fixLoopF_le {T : Nat} :
    ∀ {fuel c x : Nat}, x ∈ fixLoopF fuel T c → x ≤ T := by
  intro fuel
  induction fuel with
  | zero => intro c x hx; simp [fixLoopF] at hx
  | succ f ih =>
      intro c x hx
      rw [fixLoopF] at hx
      by_cases hc : c ≤ T
      · rw [if_pos hc] at hx
        rcases List.mem_cons.mp hx with h | h
        · exact h ▸ hc
        · exact ih h
      · rw [if_neg hc] at hx
        simp at hx

theorem fixLoopF_from (T : Nat) :
    ∀ (fuel j : Nat), 1 ≤ j → T / 5 + 2 ≤ fuel + j →
      fixLoopF fuel T (5 * j) = (List.range' j (T / 5 + 1 - j)).map (fun k => 5 * k) := by
  intro fuel
  induction fuel with
  | zero =>
      intro j hj hge
      rw [show T / 5 + 1 - j = 0 by omega]
      rfl
  | succ f ih =>
      intro j hj hge
      rw [fixLoopF]
      by_cases hc : 5 * j ≤ T
      · have hjle : j ≤ T / 5 := by
          rw [Nat.le_div_iff_mul_le (by norm_num : 0 < 5)]
          omega
        rw [if_pos hc, if_neg (by omega : ¬(5 * j = 0))]
        rw [show 5 * j + 5 = 5 * (j + 1) by ring, ih (j + 1) (by omega) (by omega)]
        rw [show T / 5 + 1 - j = (T / 5 - j) + 1 by omega, List.range'_succ, List.map_cons]
        rw [show T / 5 + 1 - (j + 1) = T / 5 - j by omega]
      · have hlt : T / 5 < j := by
          rw [Nat.div_lt_iff_lt_mul (by norm_num : 0 < 5)]
          omega
        rw [if_neg hc, show T / 5 + 1 - j = 0 by omega]
        rfl

theorem get_fixierung_eq_range (T : Nat) :
    get_fixierung_values_for_laufzeit T = (List.range (T / 5 + 1)).map (fun k => 5 * k) := by
  unfold get_fixierung_values_for_laufzeit
  rw [show T + 2 = (T + 1) + 1 from rfl, fixLoopF, if_pos (Nat.zero_le T), if_pos rfl]
  have h5 := fixLoopF_from T (T + 1) 1 (Nat.le_refl 1) (by omega)
  rw [Nat.mul_one] at h5
  rw [h5, List.range_eq_range']
  rw [show T / 5 + 1 - 1 = T / 5 by omega]
  rw [List.range'_succ, List.map_cons]

theorem mem_get_fixierung_le {T x : Nat}
    (hx : x ∈ get_fixierung_values_for_laufzeit T) : x ≤ T :=
  mem_fixLoopF_le (by simpa [get_fixierung_values_for_laufzeit] using hx)

/-- C2: for every term `T`, the generated fixed-period grid is exactly the
ascending sequence 0, 5, 10, … up to the largest multiple of 5 not exceeding
`T`; every element of the grid is at most `T`; and for `T < 5` the grid is
exactly `[0]`. -/
theorem C2_fixed_period_grid (T : Nat) :
    get_fixierung_values_for_laufzeit T = (List.range (T / 5 + 1)).map (fun k => 5 * k) ∧
      (∀ x ∈ get_fixierung_values_for_laufzeit T, x ≤ T) ∧
      (T < 5 → get_fixierung_values_for_laufzeit T = [0]) := by
  refine ⟨get_fixierung_eq_range T, ?_, ?_⟩
  · intro x hx
    exact mem_get_fixierung_le hx
  · intro h
    rw [get_fixierung_eq_range T, Nat.div_eq_of_lt h]
    rfl

/-- C2 (witness): the theorem applied at term 12 (grid `[0, 5, 10]`, element
10) and at term 3 (grid `[0]`). -/
theorem C2_fixed_period_grid_witness :
    get_fixierung_values_for_laufzeit 12 = (List.range (12 / 5 + 1)).map (fun k => 5 * k) ∧
      (10 : Nat) ≤ 12 ∧ get_fixierung_values_for_laufzeit 3 = [0] :=
  ⟨(C2_fixed_period_grid 12).1, (C2_fixed_period_grid 12).2.1 10 (by decide),
    (C2_fixed_period_grid 3).2.2 (by decide)⟩

/-! ### The sweep loop -/

theorem mem_processCells {o : Nat → Option (List (List Char × List Char))} :
    ∀ {fs : List Nat} {k : Nat} {v : Variation}, v ∈ (processCells o fs k).1 →
      ∃ f ∈ fs, ∃ d, v = buildVariation f d := by
  intro fs
  induction fs with
  | nil => intro k v hv; simp [processCells] at hv
  | cons f fs ih =>
      intro k v hv
      rw [processCells] at hv
      rcases List.mem_cons.mp hv with h | h
      · exact ⟨f, List.mem_cons_self f fs, scrape_offer_details (o k), h⟩
      · obtain ⟨g, hg, d, hd⟩ := ih h
        exact ⟨g, List.mem_cons_of_mem f hg, d, hd⟩

theorem processCells_fst_length (o : Nat → Option (List (List Char × List Char))) :
    ∀ (fs : List Nat) (k : Nat), (processCells o fs k).1.length = fs.length := by
  intro fs
  induction fs with
  | nil => intro k; rfl
  | cons f fs ih => intro k; simp [processCells, ih]

/-- C7: every Variation generated by the sweep and read back from the store
has its fixed period bounded by the owning run's term: no (term, fixed-period)
combination with fixed-period exceeding the term is ever generated or
persisted. -/
theorem C7_fixierung_le_laufzeit :
    ∀ (extract : Nat → Option (List (List Char × List Char))) (L : Nat) (v : Variation),
      v ∈ listVariations (save_scraping_data L (variationsForTerm extract L)) →
      v.fixierung_jahre ≤ L := by
  intro extract L v hv
  have hperm := List.perm_insertionSort fixLE (variationsForTerm extract L)
  have hvmem : v ∈ variationsForTerm extract L := hperm.mem_iff.mp hv
  obtain ⟨f, hf, d, hd⟩ := mem_processCells hvmem
  rw [hd]
  exact mem_get_fixierung_le hf

/-- C7 (witness): the theorem applied to the all-absent-panel extraction at
term 15 and the variation of its first grid cell. -/
theorem C7_fixierung_le_laufzeit_witness :
    (buildVariation 0 (scrape_offer_details none)).fixierung_jahre ≤ 15 :=
  C7_fixierung_le_laufzeit (fun _ => none) 15 _ (by decide)

/-- C3 (counterexample): a grid cell whose extraction returned the empty
mapping is not stored with every descriptive text field equal to the sentinel
"-": the follow-up-condition field `anschlusskondition` is read with no
default and is stored as null, not as "-". -/
theorem C3_counterexample :
    scrape_offer_details none = [] ∧
      (buildVariation 0 (scrape_offer_details none)).anschlusskondition ≠ some ("-".toList) := by
  exact ⟨rfl, by decide⟩

/-- C3 (amended): for every term, exactly one Variation row per grid cell is
built and persisted — `listVariations` returns as many rows as the grid has
values, however many extractions failed — and a cell whose extraction
returned the empty mapping is stored with every numeric field null, the
descriptive fields `zinssatz`, `laufzeit`, `effektiver_zinssatz` and
`besicherung` equal to the sentinel "-", and `anschlusskondition` null. -/
theorem C3_row_per_cell :
    ∀ (extract : Nat → Option (List (List Char × List Char))) (L : Nat),
      (listVariations (save_scraping_data L (variationsForTerm extract L))).length =
        (get_fixierung_values_for_laufzeit L).length ∧
      (∀ (f : Nat) (panel : Option (List (List Char × List Char))),
          scrape_offer_details panel = [] →
          buildVariation f (scrape_offer_details panel) =
            ⟨f, none, ("-".toList), ("-".toList), none, ("-".toList),
              none, none, none, none, ("-".toList)⟩) := by
  intro extract L
  constructor
  · have hperm := List.perm_insertionSort fixLE (variationsForTerm extract L)
    rw [listVariations, save_scraping_data, hperm.length_eq, variationsForTerm,
      processCells_fst_length]
  · intro f panel hp
    rw [hp]
    rfl

/-- C3 (witness): the theorem applied at term 7 (grid `[0, 5]`) with every
panel absent, and at the empty extraction of a single cell. -/
theorem C3_row_per_cell_witness :
    (listVariations (save_scraping_data 7 (variationsForTerm (fun _ => none) 7))).length =
      (get_fixierung_values_for_laufzeit 7).length ∧
      buildVariation 0 (scrape_offer_details none) =
        ⟨0, none, ("-".toList), ("-".toList), none, ("-".toList),
          none, none, none, none, ("-".toList)⟩ :=
  ⟨(C3_row_per_cell (fun _ => none) 7).1, (C3_row_per_cell (fun _ => none) 7).2 0 none rfl⟩

/-- C5 (counterexample): the controller does not re-run extraction when a
cell's first extraction is empty. With every panel absent, each of the 4 grid
cells of term 15 yields the empty mapping on its first extraction — a single
retry of even one such cell would take at least 5 extraction calls, but the
loop performs exactly 4, one per cell. -/
theorem C5_counterexample :
    scrape_offer_details ((fun _ => (none : Option (List (List Char × List Char)))) 0) = [] ∧
      (processCells (fun _ => none) (get_fixierung_values_for_laufzeit 15) 0).2 = 4 ∧
      ¬(5 ≤ (processCells (fun _ => none) (get_fixierung_values_for_laufzeit 15) 0).2) := by
  refine ⟨rfl, by decide, by decide⟩

/-- C5 (amended): for every cell of the fixed-period grid the controller
invokes extraction exactly once — starting from call number `k`, sweeping a
grid consumes exactly one extraction call per cell, with no retry for empty
or unchanged panels. -/
theorem C5_single_extraction :
    ∀ (oracle : Nat → Option (List (List Char × List Char))) (fs : List Nat) (k : Nat),
      (processCells oracle fs k).2 = k + fs.length := by
  intro oracle fs
  induction fs with
  | nil => intro k; simp [processCells]
  | cons f fs ih =>
      intro k
      rw [processCells, ih]
      simp [Nat.add_comm, Nat.add_assoc, Nat.add_left_comm]

/-! ### The quote extractor's key set -/

/-- The canonical field vocabulary: exactly the panel labels that the sweep's
Variation builder reads from the extraction mapping. -/
def canonicalFields : List (List Char) :=
  [("Rate".toList), ("Zinssatz".toList), ("Laufzeit".toList), ("Anschlusskondition".toList),
    ("Effektiver Zinssatz".toList), ("Auszahlungsbetrag".toList),
    ("Einberechnete Kosten".toList), ("Kreditbetrag".toList),
    ("Zu zahlender Gesamtbetrag".toList), ("Besicherung".toList)]

/-- C4 (counterexample): the extractor stores a row whose label is outside
the canonical vocabulary under that label — a panel row labelled "Foo"
contributes the key "Foo" to the returned mapping. -/
theorem C4_counterexample :
    ("Foo".toList) ∈ dKeys (scrape_offer_details (some [(("Foo".toList), ("bar".toList))])) ∧
      ("Foo".toList) ∉ canonicalFields := by
  refine ⟨by decide, by decide⟩

theorem mem_dKeys_dictInsert {k v : List Char} {d : List (List Char × List Char)}
    {x : List Char} : x ∈ dKeys (dictInsert k v d) ↔ x = k ∨ x ∈ dKeys d := by
  unfold dictInsert
  by_cases hk : k ∈ dKeys d
  · rw [if_pos hk]
    have hkeys : dKeys (d.map fun p => if p.1 = k then (k, v) else p) = dKeys d := by
      unfold dKeys
      rw [List.map_map]
      refine List.map_congr_left ?_
      intro p _
      by_cases hp1 : p.1 = k
      · simp [hp1]
      · simp [hp1]
    rw [hkeys]
    constructor
    · exact Or.inr
    · rintro (h | h)
      · exact h ▸ hk
      · exact h
  · rw [if_neg hk]
    unfold dKeys
    rw [List.map_append]
    simp only [List.mem_append, List.map_cons, List.map_nil, List.mem_singleton]
    constructor
    · rintro (h | h)
      · exact Or.inr h
      · exact Or.inl h
    · rintro (h | h)
      · exact Or.inr h
      · exact Or.inl h

theorem mem_dKeys_scrapeFold :
    ∀ (rows : List (List Char × List Char)) (d : List (List Char × List Char)) (x : List Char),
      (x ∈ dKeys (rows.foldl
          (fun d p => if p.1 ≠ [] ∧ p.2 ≠ [] then dictInsert (cleanLabel p.1) p.2 d else d) d) ↔
        x ∈ dKeys d ∨ ∃ p ∈ rows, p.1 ≠ [] ∧ p.2 ≠ [] ∧ cleanLabel p.1 = x) := by
  intro rows
  induction rows with
  | nil => intro d x; simp
  | cons r rows ih =>
      intro d x
      rw [List.foldl_cons]
      by_cases hr : r.1 ≠ [] ∧ r.2 ≠ []
      · rw [if_pos hr, ih, mem_dKeys_dictInsert]
        constructor
        · rintro ((h | h) | h)
          · exact Or.inr ⟨r, List.mem_cons_self r rows, hr.1, hr.2, h.symm⟩
          · exact Or.inl h
          · obtain ⟨p, hp, h1, h2, h3⟩ := h
            exact Or.inr ⟨p, List.mem_cons_of_mem r hp, h1, h2, h3⟩
        · rintro (h | h)
          · exact Or.inl (Or.inr h)
          · obtain ⟨p, hp, h1, h2, h3⟩ := h
            rcases List.mem_cons.mp hp with hpr | hpr
            · exact Or.inl (Or.inl (hpr ▸ h3).symm)
            · exact Or.inr ⟨p, hpr, h1, h2, h3⟩
      · rw [if_neg hr, ih]
        constructor
        · rintro (h | h)
          · exact Or.inl h
          · obtain ⟨p, hp, h1, h2, h3⟩ := h
            exact Or.inr ⟨p, List.mem_cons_of_mem r hp, h1, h2, h3⟩
        · rintro (h | h)
          · exact Or.inl h
          · obtain ⟨p, hp, h1, h2, h3⟩ := h
            rcases List.mem_cons.mp hp with hpr | hpr
            · exact absurd ⟨hpr ▸ h1, hpr ▸ h2⟩ hr
            · exact Or.inr ⟨p, hpr, h1, h2, h3⟩

/-- C4 (amended): the mapping returned by the extractor has as keys exactly
the synonym-cleaned labels of the panel rows with a nonempty label and a
nonempty value — there is no filtering to the canonical vocabulary inside the
extractor; restriction to canonical fields happens only because the Variation
builder reads only the canonical keys. -/
theorem C4_extractor_keys :
    ∀ (rows : List (List Char × List Char)) (x : List Char),
      x ∈ dKeys (scrape_offer_details (some rows)) ↔
        ∃ p ∈ rows, p.1 ≠ [] ∧ p.2 ≠ [] ∧ cleanLabel p.1 = x := by
  intro rows x
  show x ∈ dKeys (rows.foldl _ []) ↔ _
  rw [mem_dKeys_scrapeFold]
  simp [dKeys]

/-- C4 (witness): the theorem applied to a single-row panel labelled with the
long follow-up-condition variant, whose cleaned label is the canonical
follow-up-condition key. -/
theorem C4_extractor_keys_witness :
    ("Anschlusskondition".toList) ∈
      dKeys (scrape_offer_details
        (some [(("Anschlusskondition nach Fixzinsphase".toList), ("3,5 %".toList))])) :=
  (C4_extractor_keys [(("Anschlusskondition nach Fixzinsphase".toList), ("3,5 %".toList))]
      ("Anschlusskondition".toList)).mpr
    ⟨(("Anschlusskondition nach Fixzinsphase".toList), ("3,5 %".toList)),
      List.mem_cons_self _ _, by decide, by decide, by decide⟩

/-! ### Duration normalization -/

theorem castInt_digits {ds : List Char} (hne : ds ≠ [])
    (h : ∀ c ∈ ds, c.isDigit = true) : castInt ds = Int.ofNat (digitsToNat ds) := by
  obtain ⟨d, t, rfl⟩ := List.exists_cons_of_ne_nil hne
  have hd : d.isDigit = true := h d (List.mem_cons_self d t)
  have hdl : dropLeadWs (d :: t) = d :: t :=
    dropWhile_eq_self_of (fun c hc => not_ws_of_digit (h c hc))
  have h1 : ¬(d = '-') := fun he => absurd hd (by rw [he]; decide)
  have h2 : ¬(d = '+') := fun he => absurd hd (by rw [he]; decide)
  simp only [castInt, hdl, if_neg h1, if_neg h2]
  rw [takeWhile_eq_self_of h]

/-- C9: duration display strings are normalized to months — a digit string
followed by the year-unit word " Jahre" is parsed and multiplied by 12, a
digit string followed by the month-unit word " Monate" is parsed as-is, and a
bare digit string is parsed directly (so "25 Jahre" normalizes to 300). -/
theorem C9_duration_to_months :
    ∀ ds : List Char, ds ≠ [] → (∀ c ∈ ds, c.isDigit = true) →
      vertragslaufzeit_numeric (ds ++ (" Jahre".toList)) = Int.ofNat (digitsToNat ds) * 12 ∧
      vertragslaufzeit_numeric (ds ++ (" Monate".toList)) = Int.ofNat (digitsToNat ds) ∧
      vertragslaufzeit_numeric ds = Int.ofNat (digitsToNat ds) := by
  intro ds hne h
  rw [show (" Jahre".toList) = (' ' :: 'J' :: 'a' :: 'h' :: 'r' :: 'e' :: []) from rfl,
    show (" Monate".toList) = (' ' :: 'M' :: 'o' :: 'n' :: 'a' :: 't' :: 'e' :: []) from rfl]
  have hsep : ∀ c ∈ ds, c ≠ ' ' :=
    fun c hc => digit_ne_of_not_digit (h c hc) (by decide)
  have hnoJ : ∀ c ∈ ds, c ≠ 'J' :=
    fun c hc => digit_ne_of_not_digit (h c hc) (by decide)
  have hnoM : ∀ c ∈ ds, c ≠ 'M' :=
    fun c hc => digit_ne_of_not_digit (h c hc) (by decide)
  have hrem : removeChar ' ' ds = ds := removeChar_eq_self hsep
  refine ⟨?_, ?_, ?_⟩
  · have hJ : containsSub ('J' :: 'a' :: 'h' :: 'r' :: 'e' :: [])
        (ds ++ (' ' :: 'J' :: 'a' :: 'h' :: 'r' :: 'e' :: [])) = true := by
      rw [show ds ++ (' ' :: 'J' :: 'a' :: 'h' :: 'r' :: 'e' :: []) =
        (ds ++ [' ']) ++ ('J' :: 'a' :: 'h' :: 'r' :: 'e' :: []) by simp]
      exact containsSub_self_suffix _ _
    have hstripJ : replaceAll (' ' :: 'J' :: 'a' :: 'h' :: 'r' :: 'e' :: []) []
        (ds ++ (' ' :: 'J' :: 'a' :: 'h' :: 'r' :: 'e' :: [])) = ds :=
      replaceAll_strip_suffix hsep
    unfold vertragslaufzeit_numeric
    rw [if_pos hJ, hstripJ, hrem, castInt_digits hne h]
  · have hJfalse : containsSub ('J' :: 'a' :: 'h' :: 'r' :: 'e' :: [])
        (ds ++ (' ' :: 'M' :: 'o' :: 'n' :: 'a' :: 't' :: 'e' :: [])) = false := by
      refine containsSub_eq_false ?_
      intro c hc
      rcases List.mem_append.mp hc with hc | hc
      · exact hnoJ c hc
      · simp only [List.mem_cons, List.not_mem_nil, or_false] at hc
        rcases hc with h1 | h1 | h1 | h1 | h1 | h1 | h1 <;> (subst h1; decide)
    have hM : containsSub ('M' :: 'o' :: 'n' :: 'a' :: 't' :: 'e' :: [])
        (ds ++ (' ' :: 'M' :: 'o' :: 'n' :: 'a' :: 't' :: 'e' :: [])) = true := by
      rw [show ds ++ (' ' :: 'M' :: 'o' :: 'n' :: 'a' :: 't' :: 'e' :: []) =
        (ds ++ [' ']) ++ ('M' :: 'o' :: 'n' :: 'a' :: 't' :: 'e' :: []) by simp]
      exact containsSub_self_suffix _ _
    have hstripM : replaceAll (' ' :: 'M' :: 'o' :: 'n' :: 'a' :: 't' :: 'e' :: []) []
        (ds ++ (' ' :: 'M' :: 'o' :: 'n' :: 'a' :: 't' :: 'e' :: [])) = ds :=
      replaceAll_strip_suffix hsep
    unfold vertragslaufzeit_numeric
    rw [if_neg (by simp [hJfalse]), if_pos hM, hstripM, hrem, castInt_digits hne h]
  · have hJfalse : containsSub ('J' :: 'a' :: 'h' :: 'r' :: 'e' :: []) ds = false :=
      containsSub_eq_false hnoJ
    have hMfalse : containsSub ('M' :: 'o' :: 'n' :: 'a' :: 't' :: 'e' :: []) ds = false :=
      containsSub_eq_false hnoM
    unfold vertragslaufzeit_numeric
    rw [if_neg (by simp [hJfalse]), if_neg (by simp [hMfalse]), castInt_digits hne h]

/-- C9 (witness): the theorem applied to the digit string "25": "25 Jahre"
normalizes to 300 months, "25 Monate" to 25, and "25" to 25. -/
theorem C9_duration_to_months_witness :
    vertragslaufzeit_numeric (("25".toList) ++ (" Jahre".toList)) =
        Int.ofNat (digitsToNat ("25".toList)) * 12 ∧
      vertragslaufzeit_numeric (("25".toList) ++ (" Monate".toList)) =
        Int.ofNat (digitsToNat ("25".toList)) ∧
      vertragslaufzeit_numeric ("25".toList) = Int.ofNat (digitsToNat ("25".toList)) :=
  C9_duration_to_months ("25".toList) (by decide) (by decide)

/-! ### Latest run per term -/

theorem mem_distinctFold :
    ∀ (runs : List RunRec) (acc : List Nat) (x : Nat),
      (x ∈ runs.foldl (fun ks r => if r.laufzeit ∈ ks then ks else ks ++ [r.laufzeit]) acc ↔
        x ∈ acc ∨ ∃ r ∈ runs, r.laufzeit = x) := by
  intro runs
  induction runs with
  | nil => intro acc x; simp
  | cons r runs ih =>
      intro acc x
      rw [List.foldl_cons]
      by_cases hm : r.laufzeit ∈ acc
      · rw [if_pos hm, ih]
        constructor
        · rintro (h | h)
          · exact Or.inl h
          · obtain ⟨p, hp, hpx⟩ := h
            exact Or.inr ⟨p, List.mem_cons_of_mem r hp, hpx⟩
        · rintro (h | h)
          · exact Or.inl h
          · obtain ⟨p, hp, hpx⟩ := h
            rcases List.mem_cons.mp hp with hpr | hpr
            · exact Or.inl (by rw [← hpx, hpr]; exact hm)
            · exact Or.inr ⟨p, hpr, hpx⟩
      · rw [if_neg hm, ih]
        simp only [List.mem_append, List.mem_singleton]
        constructor
        · rintro ((h | h) | h)
          · exact Or.inl h
          · exact Or.inr ⟨r, List.mem_cons_self r runs, h.symm⟩
          · obtain ⟨p, hp, hpx⟩ := h
            exact Or.inr ⟨p, List.mem_cons_of_mem r hp, hpx⟩
        · rintro (h | h)
          · exact Or.inl (Or.inl h)
          · obtain ⟨p, hp, hpx⟩ := h
            rcases List.mem_cons.mp hp with hpr | hpr
            · exact Or.inl (Or.inr (by rw [← hpx, hpr]))
            · exact Or.inr ⟨p, hpr, hpx⟩

theorem mem_distinctTerms {runs : List RunRec} {x : Nat} :
    x ∈ distinctTerms runs ↔ ∃ r ∈ runs, r.laufzeit = x := by
  rw [distinctTerms, mem_distinctFold]
  simp

theorem distinctFold_nodup :
    ∀ (runs : List RunRec) (acc : List Nat), acc.Nodup →
      (runs.foldl (fun ks r => if r.laufzeit ∈ ks then ks else ks ++ [r.laufzeit]) acc).Nodup := by
  intro runs
  induction runs with
  | nil => intro acc h; exact h
  | cons r runs ih =>
      intro acc h
      rw [List.foldl_cons]
      by_cases hm : r.laufzeit ∈ acc
      · rw [if_pos hm]; exact ih acc h
      · rw [if_neg hm]
        refine ih _ (List.nodup_append.mpr ⟨h, List.nodup_singleton _, ?_⟩)
        intro a ha hax
        rw [List.mem_singleton] at hax
        exact hm (hax ▸ ha)

theorem distinctTerms_nodup (runs : List RunRec) : (distinctTerms runs).Nodup :=
  distinctFold_nodup runs [] List.nodup_nil

theorem mem_groupForTerm {runs : List RunRec} {L : Nat} {r : RunRec} :
    r ∈ groupForTerm runs L ↔ r ∈ runs ∧ r.laufzeit = L := by
  simp [groupForTerm, List.mem_filter]

theorem groupForTerm_ne_nil {runs : List RunRec} {L : Nat}
    (h : ∃ r ∈ runs, r.laufzeit = L) : groupForTerm runs L ≠ [] := by
  obtain ⟨r, hr, hL⟩ := h
  intro hnil
  have hmem : r ∈ groupForTerm runs L := mem_groupForTerm.mpr ⟨hr, hL⟩
  rw [hnil] at hmem
  exact List.not_mem_nil r hmem

theorem head_insertionSort_max {g : List RunRec} {r : RunRec}
    (h : (List.insertionSort dateGE g).head? = some r) :
    r ∈ g ∧ ∀ x ∈ g, x.scrape_date ≤ r.scrape_date := by
  have hperm := List.perm_insertionSort dateGE g
  have hsorted := List.sorted_insertionSort dateGE g
  cases hs : List.insertionSort dateGE g with
  | nil => rw [hs] at h; simp at h
  | cons a t =>
      rw [hs] at h hperm hsorted
      have har : a = r := by simpa using h
      subst har
      have hcons := List.sorted_cons.mp hsorted
      constructor
      · exact hperm.mem_iff.mp (List.mem_cons_self a t)
      · intro x hx
        rcases List.mem_cons.mp (hperm.mem_iff.mpr hx) with hxa | hxt
        · exact hxa ▸ Nat.le_refl _
        · exact hcons.1 x hxt

theorem insertionSort_ne_nil {g : List RunRec} (h : g ≠ []) :
    List.insertionSort dateGE g ≠ [] := by
  intro hnil
  have hperm := List.perm_insertionSort dateGE g
  rw [hnil] at hperm
  exact h hperm.symm.eq_nil

theorem lookupTerm_filterMap {runs : List RunRec} :
    ∀ (ks : List Nat) (L : Nat), L ∈ ks → groupForTerm runs L ≠ [] →
      ∃ v, lookupTerm L (ks.filterMap (fun laufzeit =>
            (List.insertionSort dateGE (groupForTerm runs laufzeit)).head?.map
              (fun r => (laufzeit, r)))) = some v ∧
        (List.insertionSort dateGE (groupForTerm runs L)).head? = some v := by
  intro ks
  induction ks with
  | nil => intro L hL; simp at hL
  | cons k ks ih =>
      intro L hL hg
      rw [List.filterMap_cons]
      by_cases hk : L = k
      · subst hk
        obtain ⟨v, t, hv⟩ := List.exists_cons_of_ne_nil (insertionSort_ne_nil hg)
        rw [hv]
        refine ⟨v, ?_, rfl⟩
        simp only [List.head?_cons, Option.map_some']
        simp [lookupTerm]
      · cases hfk : (List.insertionSort dateGE (groupForTerm runs k)).head? with
        | none =>
            obtain ⟨v, hv1, hv2⟩ := ih L (List.mem_of_ne_of_mem hk hL) hg
            exact ⟨v, hv1, hv2⟩
        | some p =>
            obtain ⟨v, hv1, hv2⟩ := ih L (List.mem_of_ne_of_mem hk hL) hg
            refine ⟨v, ?_, hv2⟩
            simp only [Option.map_some']
            simp only [lookupTerm]
            rw [if_neg (show ¬((k, p).1 = L) from fun he => hk he.symm)]
            exact hv1

theorem latest_keys {runs : List RunRec} :
    ∀ ks : List Nat, (∀ k ∈ ks, groupForTerm runs k ≠ []) →
      ((ks.filterMap (fun laufzeit =>
          (List.insertionSort dateGE (groupForTerm runs laufzeit)).head?.map
            (fun r => (laufzeit, r)))).map Prod.fst = ks) := by
  intro ks
  induction ks with
  | nil => intro _; rfl
  | cons k ks ih =>
      intro h
      rw [List.filterMap_cons]
      obtain ⟨v, t, hv⟩ :=
        List.exists_cons_of_ne_nil (insertionSort_ne_nil (h k (List.mem_cons_self k ks)))
      rw [hv]
      simp only [List.head?_cons, Option.map_some', List.map_cons]
      rw [ih (fun x hx => h x (List.mem_cons_of_mem k hx))]

/-- C8: `latest_by_laufzeit` returns exactly one run per distinct term value
present among the stored runs — its key list is exactly the distinct terms,
without duplicates — and for each term the returned run is a run of that term
with the maximum creation timestamp among all runs sharing the term. -/
theorem C8_latest_run_per_term :
    ∀ (runs : List RunRec) (L : Nat),
      ((latest_by_laufzeit runs).map Prod.fst = distinctTerms runs ∧
        ((latest_by_laufzeit runs).map Prod.fst).Nodup ∧
        (L ∈ (latest_by_laufzeit runs).map Prod.fst ↔ ∃ r ∈ runs, r.laufzeit = L)) ∧
      ((∃ r ∈ runs, r.laufzeit = L) →
        ∃ v, lookupTerm L (latest_by_laufzeit runs) = some v ∧ v ∈ runs ∧ v.laufzeit = L ∧
          ∀ r ∈ runs, r.laufzeit = L → r.scrape_date ≤ v.scrape_date) := by
  intro runs L
  have hgroups : ∀ k ∈ distinctTerms runs, groupForTerm runs k ≠ [] :=
    fun k hk => groupForTerm_ne_nil (mem_distinctTerms.mp hk)
  have hkeys : (latest_by_laufzeit runs).map Prod.fst = distinctTerms runs :=
    latest_keys (distinctTerms runs) hgroups
  refine ⟨⟨hkeys, ?_, ?_⟩, ?_⟩
  · rw [hkeys]; exact distinctTerms_nodup runs
  · rw [hkeys]; exact mem_distinctTerms
  · intro h
    obtain ⟨v, hv1, hv2⟩ :=
      lookupTerm_filterMap (distinctTerms runs) L (mem_distinctTerms.mpr h)
        (groupForTerm_ne_nil h)
    have hmax := head_insertionSort_max hv2
    have hvg := mem_groupForTerm.mp hmax.1
    refine ⟨v, hv1, hvg.1, hvg.2, ?_⟩
    intro r hr hrl
    exact hmax.2 r (mem_groupForTerm.mpr ⟨hr, hrl⟩)

/-- C8 (witness): the theorem applied to a concrete store holding two runs of
term 35 (dates 10 and 20) and one run of term 30: the term-35 entry is the
run with the larger timestamp. -/
theorem C8_latest_run_per_term_witness :
    ∃ v, lookupTerm 35 (latest_by_laufzeit [⟨1, 35, 10⟩, ⟨2, 35, 20⟩, ⟨3, 30, 5⟩]) = some v ∧
      v ∈ [(⟨1, 35, 10⟩ : RunRec), ⟨2, 35, 20⟩, ⟨3, 30, 5⟩] ∧ v.laufzeit = 35 ∧
      ∀ r ∈ [(⟨1, 35, 10⟩ : RunRec), ⟨2, 35, 20⟩, ⟨3, 30, 5⟩], r.laufzeit = 35 →
        r.scrape_date ≤ v.scrape_date :=
  (C8_latest_run_per_term [⟨1, 35, 10⟩, ⟨2, 35, 20⟩, ⟨3, 30, 5⟩] 35).2
    ⟨⟨1, 35, 10⟩, by decide, rfl⟩

/-- C1 (witness): the amended idempotence theorem applied to the canonical
string "1948.50". -/
theorem C1_amended_witness :
    parse_german_number (some ("1948.50".toList)) = floatOfChars ("1948.50".toList) :=
  C1_amended.1 ("1948.50".toList) (by decide) (by decide)

/-- C6 (witness): the amended shape-rule theorem applied to the headline
currency string "1.948,50 €", which contains no "Euro" word and contains a
comma after stripping. -/
theorem C6_amended_witness :
    pcfCore ("1.948,50 €".toList) = specCurrencyRule ("1.948,50 €".toList) :=
  C6_amended.1 ("1.948,50 €".toList) (by decide) (Or.inl (by decide))

/-- C10 (witness): the amended equivalence theorem applied to the
German-format string "1.948,50" split as digit part "1.948" and fraction
"50". -/
theorem C10_amended_witness :
    parse_currency_to_float (some (("1.948".toList) ++ ',' :: ("50".toList))) =
      parse_german_number (some (("1.948".toList) ++ ',' :: ("50".toList))) :=
  C10_amended ("1.948".toList) ("50".toList) (by decide) (by decide)

end BankScraper
